import Mathlib

/-!
Verification of the pretty-json renderer.

A shallow embedding of `src/main.rs` of the `pretty-json` repository.

The renderer is embedded as a function from a JSON value to the list of
strings passed to the output sink, one list entry per `write!`/`writeln!`
call of the source (`write_pretty`, `write_pretty_array`,
`write_pretty_object`).  Strings are modelled as `List Char`; joining the
op list gives the rendered text.  The output-path derivation
(`pretty_name`) is embedded over separator-free file names.

Machine integers: Rust `usize` subtraction is modelled by `usizeSub`,
which wraps modulo `2 ^ 64` exactly as a release build does; the guard
`usizeSubUnderflows` records when the subtraction would underflow (and
panic under debug overflow checks).
-/

namespace PrettyJson

/-- The document model: a parsed JSON value (`serde_json::Value`).
Numbers keep the literal text produced by the parsing collaborator
(the spec: number text is passed through as parsed, no re-derivation). -/
inductive Value where
  | null : Value
  | bool (b : Bool) : Value
  | num (lit : List Char) : Value
  | str (s : List Char) : Value
  | arr (items : List Value) : Value
  | obj (entries : List (List Char × Value)) : Value

/-- `const INDENT: usize = 4;` -/
def INDENT : Nat := 4

/-- Rust `write!(output, "{:w$}", ' ')`: the space character formatted with
minimum width `w`, i.e. `max w 1` spaces (the character itself is one column,
so width 0 still prints one space). -/
def padChars (w : Nat) : List Char := List.replicate (w.max 1) ' '

/-- Rust `usize` subtraction as compiled in release mode: wraps modulo
`2 ^ 64`.  Only used with `b ≤ 2 ^ 64`. -/
def usizeSub (a b : Nat) : Nat := (a + (2 ^ 64 - b)) % 2 ^ 64

/-- The subtraction `a - b` on `usize` underflows (and would panic under
debug-profile overflow checks) exactly when `a < b`. -/
def usizeSubUnderflows (a b : Nat) : Bool := decide (a < b)

/-- `matches!(itm, Value::Array(_) | Value::Object(_))` -/
def isContainerV : Value → Bool
  | Value.arr _ => true
  | Value.obj _ => true
  | _ => false

/-- `matches!(itm, Value::Array(items) if items.len() > 3) || matches!(itm, Value::Object(_))` -/
def hasComplexV : Value → Bool
  | Value.arr items => decide (items.length > 3)
  | Value.obj _ => true
  | _ => false

/-- `matches!(itm, Value::Array(_))` -/
def isArrV : Value → Bool
  | Value.arr _ => true
  | _ => false

/-- The property-path extension performed for each object entry:
`property.clone()`, `push('.')` when non-empty, `push_str(field)`. -/
def pushField (property field : List Char) : List Char :=
  (if property.isEmpty then property else property ++ ['.']) ++ field

/-- One hexadecimal digit as printed by Rust's `{:x}` (lowercase). -/
def hexDigit : Nat → Char
  | 0 => '0' | 1 => '1' | 2 => '2' | 3 => '3' | 4 => '4'
  | 5 => '5' | 6 => '6' | 7 => '7' | 8 => '8' | 9 => '9'
  | 10 => 'a' | 11 => 'b' | 12 => 'c' | 13 => 'd' | 14 => 'e'
  | 15 => 'f' | _ => '0'

/-- Lowercase hex text of `n` (enough digits for `n < 256`, the only uses
here are code points `≤ 0x7f`). -/
def hexLit (n : Nat) : List Char :=
  if n < 16 then [hexDigit n] else [hexDigit (n / 16), hexDigit (n % 16)]

/-- Rust's `Debug` escaping of one character inside a string literal
(`write!(output, "{value:?}")` on a `String`), exact on ASCII:
`\0`, `\t`, `\r`, `\n`, `\\`, `\"` are escaped with a backslash, other
control characters (code < 0x20, or 0x7f) print as `\u{hex}` — which is
Rust syntax, not JSON — and printable characters print verbatim.
Non-ASCII scalars are modelled as printable (Rust additionally escapes
some non-printable non-ASCII scalars; the theorems below only quantify
over ASCII data, where this model is exact). -/
def escapeDebugChar (c : Char) : List Char :=
  if c = Char.ofNat 0 then ['\\', '0']
  else if c = '\t' then ['\\', 't']
  else if c = '\r' then ['\\', 'r']
  else if c = '\n' then ['\\', 'n']
  else if c = '\\' then ['\\', '\\']
  else if c = '"' then ['\\', '"']
  else if c.toNat < 32 ∨ c.toNat = 127 then
    '\\' :: 'u' :: '\x7b' :: (hexLit c.toNat ++ ['\x7d'])
  else [c]

/-- `write!(output, "{value:?}")` on a `String`: a quoted, Debug-escaped
string literal. -/
def escapeDebugString (s : List Char) : List Char :=
  '"' :: ((s.map escapeDebugChar).flatten ++ ['"'])

/-- The element loop shared by both array branches of
`write_pretty_array`: each element's already-rendered ops, followed by
`", "` when the running index is below `max` (the code compares a single
running index against the total count minus one). -/
def sep_weave (mx : Nat) : Nat → List (List (List Char)) → List (List Char)
  | _, [] => []
  | idx, r :: rs =>
      r ++ (if idx < mx then [(", ").toList] else []) ++ sep_weave mx (idx + 1) rs

/-- The row loop of the chunked branch (structural recursion on a depth
bound that `chunk_rows` below instantiates with the list length, which
always suffices since every row consumes at least one element):
`for values in &array.iter().chunks(chunks)` — write the field padding,
the elements of the row (global running index), then a newline.  The
source only calls this with chunk size 1, 5 or 10; `k.max 1` merely
records that the chunk size is positive. -/
def chunk_rows_f (k fpad mx : Nat) : Nat → Nat → List (List (List Char)) → List (List Char)
  | _, _, [] => []
  | 0, _, _ :: _ => []
  | fuel + 1, idx, r :: rs =>
      [padChars fpad]
        ++ sep_weave mx idx ((r :: rs).take (k.max 1))
        ++ [['\n']]
        ++ chunk_rows_f k fpad mx fuel (idx + ((r :: rs).take (k.max 1)).length)
             ((r :: rs).drop (k.max 1))

/-- The row loop of the chunked branch, at its natural depth bound. -/
def chunk_rows (k fpad mx : Nat) (idx : Nat) (rs : List (List (List Char))) :
    List (List Char) :=
  chunk_rows_f k fpad mx rs.length idx rs

/-- The entry loop of `write_pretty_object`: the (unescaped) quoted key with
its padding, the entry value's ops, `", "` when `idx < last`, and a newline
unless flattened. -/
def obj_entries (flatten : Bool) (fpad last : Nat) :
    Nat → List (List Char × List (List Char)) → List (List Char)
  | _, [] => []
  | idx, (field, rops) :: rest =>
      [(if flatten then [] else padChars fpad) ++ '"' :: (field ++ ("\": ").toList)]
        ++ rops
        ++ (if idx < last then [(", ").toList] else [])
        ++ (if flatten then [] else [['\n']])
        ++ obj_entries flatten fpad last (idx + 1) rest

mutual

/-- `write_pretty` / `write_pretty_array` / `write_pretty_object` of
`src/main.rs`, as the sequence of strings handed to the sink (one entry
per `write!`/`writeln!`). -/
def write_pretty (v : Value) (level : Nat) (property : List Char)
    (flat : List (List Char)) : List (List Char) :=
  match v with
  | Value.null => [("null").toList]
  | Value.bool b => [if b then ("true").toList else ("false").toList]
  | Value.num lit => [lit]
  | Value.str s => [escapeDebugString s]
  | Value.arr xs =>
      let padding := level * INDENT
      let field_padding := (level + 1) * INDENT
      let chunked := decide (xs.length > 10) || xs.any isContainerV
      let rendered := write_items xs (level + 1) property flat
      if chunked then
        let mx := xs.length.max 1 - 1
        let chunks :=
          if xs.any hasComplexV then 1
          else if xs.any isArrV then 5
          else 10
        [('[' :: ['\n'])]
          ++ chunk_rows chunks field_padding mx 0 rendered
          ++ [padChars padding ++ [']']]
      else
        [['[']] ++ sep_weave (xs.length - 1) 0 rendered ++ [[']']]
  | Value.obj entries =>
      let padding := level * INDENT
      let field_padding := (level + 1) * INDENT
      let last := usizeSub entries.length 1
      let flatten := flat.contains property
      let rendered := write_fields entries (level + 1) property flat
      (if flatten then [("\x7b ").toList] else [('\x7b' :: ['\n'])])
        ++ obj_entries flatten field_padding last 0 rendered
        ++ (if flatten then [(" \x7d").toList] else [padChars padding ++ ['\x7d']])

/-- The write sequences of the elements of an array, each rendered at the
given level with the property path passed through unchanged (array
traversal does not extend the path). -/
def write_items (xs : List Value) (level1 : Nat) (property : List Char)
    (flat : List (List Char)) : List (List (List Char)) :=
  match xs with
  | [] => []
  | itm :: rest =>
      write_pretty itm level1 property flat :: write_items rest level1 property flat

/-- The keys of an object paired with the write sequences of the entry
values, each rendered with the path extended by its own key. -/
def write_fields (entries : List (List Char × Value)) (level1 : Nat)
    (property : List Char) (flat : List (List Char)) :
    List (List Char × List (List Char)) :=
  match entries with
  | [] => []
  | (field, v) :: rest =>
      (field, write_pretty v level1 (pushField property field) flat)
        :: write_fields rest level1 property flat

end

/-- The rendered output text: all writes concatenated. -/
def render (v : Value) (level : Nat) (property : List Char)
    (flat : List (List Char)) : List Char :=
  (write_pretty v level property flat).flatten

/-! ## The output sink

The renderer's writes all end in `?`: the first failing write aborts the
whole render with that error, and a successful run is the concatenation of
all writes.  `run_writes` executes a write sequence against a sink whose
`oracle` says whether the `k`-th write fails (and with which error). -/

/-- Run a write sequence against a sink: the `k`-th write fails with
`oracle k` when that is `some e` (the `?` operator then propagates `e`
unchanged); otherwise its text is appended and the run continues. -/
def run_writes (oracle : Nat → Option Nat) : Nat → List (List Char) → Except Nat (List Char)
  | _, [] => Except.ok []
  | k, op :: ops =>
      match oracle k with
      | some e => Except.error e
      | none =>
          match run_writes oracle (k + 1) ops with
          | Except.ok rest => Except.ok (op ++ rest)
          | Except.error e => Except.error e

/-! ## A JSON scalar parser (RFC 8259)

The spec's round-trip property re-parses the rendered output with the
standard parsing collaborator.  The collaborator is external to the
repository, so scalar parsing per RFC 8259 is embedded here to state the
property: literals `null`/`true`/`false`, numbers, and strings with the
standard escapes. -/

/-- The single-character JSON string escapes: `\" \\ \/ \b \f \n \r \t`. -/
def escapeCode (e : Char) : Option Char :=
  if e = '"' then some '"'
  else if e = '\\' then some '\\'
  else if e = '/' then some '/'
  else if e = 'b' then some (Char.ofNat 8)
  else if e = 'f' then some (Char.ofNat 12)
  else if e = 'n' then some '\n'
  else if e = 'r' then some '\r'
  else if e = 't' then some '\t'
  else none

/-- Is `c` a hexadecimal digit? -/
def isHexDigitC (c : Char) : Bool :=
  c.isDigit || (97 ≤ c.toNat && c.toNat ≤ 102) || (65 ≤ c.toNat && c.toNat ≤ 70)

/-- Numeric value of a hex digit. -/
def hexVal (c : Char) : Nat :=
  if c.toNat ≥ 97 then c.toNat - 87
  else if c.toNat ≥ 65 then c.toNat - 55
  else c.toNat - 48

/-- Parse the body of a JSON string literal (after the opening quote):
returns the decoded characters and the input following the closing quote.
Unescaped control characters (code < 0x20) are rejected, escapes are the
eight single-character ones and `\uXXXX` with exactly four hex digits. -/
def parseStringBody : List Char → Option (List Char × List Char)
  | [] => none
  | c :: rest =>
      if c = '"' then some ([], rest)
      else if c = '\\' then
        match rest with
        | [] => none
        | 'u' :: a :: b :: c2 :: d :: rest3 =>
            if isHexDigitC a && isHexDigitC b && isHexDigitC c2 && isHexDigitC d then
              match parseStringBody rest3 with
              | some (tail, rem) =>
                  some (Char.ofNat
                    (hexVal a * 4096 + hexVal b * 256 + hexVal c2 * 16 + hexVal d) :: tail, rem)
              | none => none
            else none
        | 'u' :: _ => none
        | e :: rest2 =>
            match escapeCode e with
            | some ch =>
                match parseStringBody rest2 with
                | some (tail, rem) => some (ch :: tail, rem)
                | none => none
            | none => none
      else if c.toNat < 32 then none
      else
        match parseStringBody rest with
        | some (tail, rem) => some (c :: tail, rem)
        | none => none

/-- The characters that may appear in a JSON number literal. -/
def numberChar (c : Char) : Bool :=
  c.isDigit || c = '-' || c = '+' || c = '.' || c = 'e' || c = 'E'

/-- One-or-more digits making up the whole rest of a number literal. -/
def expDigits : List Char → Bool
  | [] => false
  | d :: t => d.isDigit && ((d :: t).dropWhile Char.isDigit).isEmpty

/-- The optional exponent tail of a number literal:
empty, or `(e|E) [+|-] digit+`. -/
def expTail : List Char → Bool
  | [] => true
  | 'e' :: '+' :: w => expDigits w
  | 'e' :: '-' :: w => expDigits w
  | 'e' :: w => expDigits w
  | 'E' :: '+' :: w => expDigits w
  | 'E' :: '-' :: w => expDigits w
  | 'E' :: w => expDigits w
  | _ => false

/-- The optional fraction and exponent tail: `[ . digit+ ] exp`. -/
def fracExpTail : List Char → Bool
  | '.' :: u =>
      (match u with
        | d :: _ => d.isDigit
        | [] => false)
        && expTail (u.dropWhile Char.isDigit)
  | rest => expTail rest

/-- Strip one optional leading minus sign. -/
def stripMinus : List Char → List Char
  | '-' :: t => t
  | s => s

/-- The integer part and what follows: `( 0 | digit1-9 digit* )` then the
fraction/exponent tail (a leading `0` is not followed by more integer
digits). -/
def intFracExp : List Char → Bool
  | [] => false
  | c :: t =>
      c.isDigit && fracExpTail (if c = '0' then t else t.dropWhile Char.isDigit)

/-- The RFC 8259 number grammar, as a whole-string validity check:
`[-] ( 0 | digit1-9 digit* ) [ . digit+ ] [ (e|E) [+|-] digit+ ]`. -/
def isNumLit (s : List Char) : Bool :=
  intFracExp (stripMinus s)

/-- Parse a complete JSON scalar document: the whole input must be one of
the literals `null`/`true`/`false`, a string literal, or a number literal
(numbers keep their literal text, matching the document model). -/
def parseJsonScalar (s : List Char) : Option Value :=
  match s with
  | [] => none
  | c :: rest =>
      if c = 'n' then (if rest = ("ull").toList then some Value.null else none)
      else if c = 't' then (if rest = ("rue").toList then some (Value.bool true) else none)
      else if c = 'f' then (if rest = ("alse").toList then some (Value.bool false) else none)
      else if c = '"' then
        match parseStringBody rest with
        | some (content, []) => some (Value.str content)
        | _ => none
      else
        let lit := (c :: rest).takeWhile numberChar
        let rest2 := (c :: rest).dropWhile numberChar
        if rest2.isEmpty && isNumLit lit then some (Value.num lit) else none

/-- The characters whose Rust debug escape coincides with a JSON escape or
needs none: printable ASCII (0x20–0x7E), tab, line feed, carriage return. -/
def jsonSafeChar (c : Char) : Bool :=
  (32 ≤ c.toNat && c.toNat ≤ 126) || c = '\t' || c = '\n' || c = '\r'

/-- Scalars whose rendering is claimed to round-trip: null, booleans,
numbers with a grammatical literal, strings of JSON-debug-safe
characters. -/
def scalarWF : Value → Prop
  | Value.null => True
  | Value.bool _ => True
  | Value.num lit => isNumLit lit = true
  | Value.str s => ∀ c ∈ s, jsonSafeChar c = true
  | Value.arr _ => False
  | Value.obj _ => False

/-- The number of separator commas that `len` consecutive elements of a
chunked array contribute when the running index starts at `idx`: one per
element whose global index is below `mx`. -/
def sepCount (idx len mx : Nat) : Nat := min (idx + len) mx - min idx mx

/-! ## Output-path derivation (`pretty_name`)

Embedded for sources that are bare file names (no directory separators),
for which `Path::file_name` is the whole path and `with_file_name` is the
identity on the directory part. -/

/-- The text after the last `'.'` of the input, when a `'.'` exists
(the recursion prefers a dot found further right). -/
def afterLastDot : List Char → Option (List Char)
  | [] => none
  | c :: rest =>
      match afterLastDot rest with
      | some e => some e
      | none => if c = '.' then some rest else none

/-- `Path::extension().unwrap_or_default()` on a bare file name: the part
after the last `'.'`, except that a dot at position 0 does not count
(names like `.bashrc` have no extension) and `".."` has none. -/
def rustExtension (name : List Char) : List Char :=
  if name = ['.', '.'] then []
  else
    match name with
    | [] => []
    | _ :: rest =>
        match afterLastDot rest with
        | some e => e
        | none => []

/-- Rust `str::replace(pat, "")`: remove the non-overlapping occurrences
of `pat`, scanning left to right; an empty pattern leaves the string
unchanged (matches are empty).  Structural recursion on a depth bound
that `removeAll` below instantiates with the string length, which always
suffices since every step consumes at least one character. -/
def removeAll_f (pat : List Char) : Nat → List Char → List Char
  | _, [] => []
  | 0, c :: rest => c :: rest
  | fuel + 1, c :: rest =>
      if pat.isEmpty then c :: rest
      else if pat.isPrefixOf (c :: rest) then
        removeAll_f pat fuel ((c :: rest).drop pat.length)
      else c :: removeAll_f pat fuel rest

/-- `str::replace(pat, "")` at its natural depth bound. -/
def removeAll (pat : List Char) (s : List Char) : List Char :=
  removeAll_f pat s.length s

/-- Does `pat` occur as a contiguous substring of `s`? -/
def occursIn (pat : List Char) : List Char → Bool
  | [] => pat.isEmpty
  | c :: rest => pat.isPrefixOf (c :: rest) || occursIn pat rest

/-- `if filename.ends_with('.') { filename.pop(); }` -/
def dropTrailingDot (filename : List Char) : List Char :=
  if filename.getLast? = some '.' then filename.dropLast else filename

/-- `pretty_name` of `src/main.rs`, for a source that is a bare file name:
take the extension, delete its occurrences from the file name
(`filename.replace(extension, "")`), drop one trailing dot, append
`-pretty`, and re-append the extension when there is one.  An explicit
output path is returned as-is. -/
def pretty_name (source : List Char) (output : Option (List Char)) : List Char :=
  match output with
  | some o => o
  | none =>
      if (rustExtension source).isEmpty then
        dropTrailingDot (removeAll (rustExtension source) source) ++ ("-pretty").toList
      else
        dropTrailingDot (removeAll (rustExtension source) source) ++ ("-pretty").toList
          ++ '.' :: rustExtension source

/-! ## Spec-side layout descriptions

Second definitions following the spec's wording, used to state the
refinement claims about array chunking and object flattening.  All element
separators compare a running index over the flattened element stream with
the total count (`", "` after every element except the very last). -/

/-- The spec's inline array line: elements joined by `", "` with no
trailing separator. -/
def joinSep : List (List Char) → List Char
  | [] => []
  | [a] => a
  | a :: b :: t => a ++ (", ").toList ++ joinSep (b :: t)

/-- The spec's chunk-size rule: 1 when some element is an Object or an
Array with more than 3 items, else 5 when some element is an Array, else
10. -/
def specChunkSize (xs : List Value) : Nat :=
  if xs.any (fun v => isArrV v && decide (3 < (match v with | Value.arr its => its.length | _ => 0)))
      || xs.any (fun v => match v with | Value.obj _ => true | _ => false) then 1
  else if xs.any isArrV then 5
  else 10

/-- Partition into row-groups of `k.max 1` elements (the last group may be
short). -/
def chunksOf (k : Nat) : List α → List (List α)
  | [] => []
  | x :: xs => (x :: xs).take (k.max 1) :: chunksOf k ((x :: xs).drop (k.max 1))
termination_by l => l.length
decreasing_by
  simp only [List.length_drop, List.length_cons]
  have hk : 1 ≤ k.max 1 := Nat.le_max_right k 1
  omega

/-- The spec's row contents: each element rendered, followed by `", "`
unless it is the very last element of the whole array (`idx + 1 < total`),
the comma placement being continuous across row boundaries. -/
def specElems (rend : Value → List Char) (total : Nat) : Nat → List Value → List Char
  | _, [] => []
  | idx, v :: vs =>
      rend v ++ (if idx + 1 < total then (", ").toList else [])
        ++ specElems rend total (idx + 1) vs

/-- The spec's chunked rows: each row-group prefixed by the field padding
and ended by a newline, the running element index flowing through. -/
def specRows (rend : Value → List Char) (total fpad : Nat) :
    Nat → List (List Value) → List Char
  | _, [] => []
  | idx, g :: gs =>
      padChars fpad ++ specElems rend total idx g ++ '\n'
        :: specRows rend total fpad (idx + g.length) gs

/-- The spec's chunked array layout: `[` newline, the rows, then the
closing padding and `]`. -/
def specChunked (rend : Value → List Char) (xs : List Value) (k fpad pad : Nat) : List Char :=
  '[' :: '\n' :: (specRows rend xs.length fpad 0 (chunksOf k xs) ++ padChars pad ++ [']'])

/-- The spec's flattened object entries: quoted key, `": "`, the rendered
value, `", "` when not last, no newlines. -/
def specFlatEntries (rend : List Char → Value → List Char) (total : Nat) :
    Nat → List (List Char × Value) → List Char
  | _, [] => []
  | idx, (k, v) :: rest =>
      '"' :: (k ++ ("\": ").toList) ++ rend k v
        ++ (if idx + 1 < total then (", ").toList else [])
        ++ specFlatEntries rend total (idx + 1) rest

/-- The spec's non-flattened object entries: field padding, quoted key,
`": "`, the rendered value, `", "` when not last, then a newline after
every entry. -/
def specMultiEntries (rend : List Char → Value → List Char) (total fpad : Nat) :
    Nat → List (List Char × Value) → List Char
  | _, [] => []
  | idx, (k, v) :: rest =>
      padChars fpad ++ '"' :: (k ++ ("\": ").toList) ++ rend k v
        ++ (if idx + 1 < total then (", ").toList else [])
        ++ '\n' :: specMultiEntries rend total fpad (idx + 1) rest

/-! ## Basic bridges -/

theorem write_items_eq (xs : List Value) (l1 : Nat) (p : List Char) (f : List (List Char)) :
    write_items xs l1 p f = xs.map (fun v => write_pretty v l1 p f) := by
  induction xs with
  | nil => simp [write_items]
  | cons v vs ih => simp [write_items, ih]

theorem write_fields_eq (es : List (List Char × Value)) (l1 : Nat) (p : List Char)
    (f : List (List Char)) :
    write_fields es l1 p f
      = es.map (fun e => (e.1, write_pretty e.2 l1 (pushField p e.1) f)) := by
  induction es with
  | nil => simp [write_fields]
  | cons e rest ih =>
      obtain ⟨field, v⟩ := e
      simp [write_fields, ih]

theorem usizeSub_one (n : Nat) (h1 : 1 ≤ n) (h2 : n < 2 ^ 64) : usizeSub n 1 = n - 1 := by
  have hp : (2 : Nat) ^ 64 = 18446744073709551616 := by norm_num
  simp only [usizeSub, hp] at *
  omega

theorem chunk_rows_f_congr (k fpad mx : Nat) :
    ∀ (f1 : Nat) (rs : List (List (List Char))) (idx : Nat) (f2 : Nat),
      rs.length ≤ f1 → rs.length ≤ f2 →
      chunk_rows_f k fpad mx f1 idx rs = chunk_rows_f k fpad mx f2 idx rs := by
  intro f1
  induction f1 with
  | zero =>
      intro rs idx f2 h1 h2
      have hrs : rs = [] := List.length_eq_zero.mp (Nat.le_zero.mp h1)
      subst hrs
      cases f2 <;> rfl
  | succ m ih =>
      intro rs idx f2 h1 h2
      cases rs with
      | nil => cases f2 <;> rfl
      | cons r rest =>
          cases f2 with
          | zero => simp at h2
          | succ n =>
              have hk : 1 ≤ k.max 1 := Nat.le_max_right k 1
              have hd1 : ((r :: rest).drop (k.max 1)).length ≤ m := by
                simp only [List.length_drop, List.length_cons]
                simp only [List.length_cons] at h1
                omega
              have hd2 : ((r :: rest).drop (k.max 1)).length ≤ n := by
                simp only [List.length_drop, List.length_cons]
                simp only [List.length_cons] at h2
                omega
              simp only [chunk_rows_f]
              rw [ih _ _ n hd1 hd2]

theorem chunk_rows_nil (k fpad mx idx : Nat) : chunk_rows k fpad mx idx [] = [] := rfl

theorem chunk_rows_cons (k fpad mx idx : Nat) (r : List (List Char))
    (rs : List (List (List Char))) :
    chunk_rows k fpad mx idx (r :: rs)
      = [padChars fpad]
        ++ sep_weave mx idx ((r :: rs).take (k.max 1))
        ++ [['\n']]
        ++ chunk_rows k fpad mx (idx + ((r :: rs).take (k.max 1)).length)
             ((r :: rs).drop (k.max 1)) := by
  have hk : 1 ≤ k.max 1 := Nat.le_max_right k 1
  unfold chunk_rows
  simp only [List.length_cons, chunk_rows_f]
  rw [chunk_rows_f_congr k fpad mx rs.length _ _ ((r :: rs).drop (k.max 1)).length
    (by simp only [List.length_drop, List.length_cons]; omega) le_rfl]

theorem removeAll_f_congr (pat : List Char) :
    ∀ (f1 : Nat) (s : List Char) (f2 : Nat), s.length ≤ f1 → s.length ≤ f2 →
      removeAll_f pat f1 s = removeAll_f pat f2 s := by
  intro f1
  induction f1 with
  | zero =>
      intro s f2 h1 h2
      have hs : s = [] := List.length_eq_zero.mp (Nat.le_zero.mp h1)
      subst hs
      cases f2 <;> rfl
  | succ m ih =>
      intro s f2 h1 h2
      cases s with
      | nil => cases f2 <;> rfl
      | cons c rest =>
          cases f2 with
          | zero => simp at h2
          | succ n =>
              simp only [removeAll_f]
              by_cases he : pat.isEmpty
              · simp [he]
              · have hlen : 1 ≤ pat.length := by
                  cases pat with
                  | nil => simp at he
                  | cons a t => simp
                by_cases hp : pat.isPrefixOf (c :: rest)
                · have hd1 : ((c :: rest).drop pat.length).length ≤ m := by
                    simp only [List.length_drop, List.length_cons]
                    simp only [List.length_cons] at h1
                    omega
                  have hd2 : ((c :: rest).drop pat.length).length ≤ n := by
                    simp only [List.length_drop, List.length_cons]
                    simp only [List.length_cons] at h2
                    omega
                  simp only [he, hp, if_true, if_false, Bool.false_eq_true, not_false_iff]
                  rw [ih _ n hd1 hd2]
                · have hr1 : rest.length ≤ m := by
                    simp only [List.length_cons] at h1
                    omega
                  have hr2 : rest.length ≤ n := by
                    simp only [List.length_cons] at h2
                    omega
                  simp only [he, hp, if_true, if_false, Bool.false_eq_true, not_false_iff]
                  rw [ih _ n hr1 hr2]

theorem removeAll_cons (pat : List Char) (c : Char) (rest : List Char) :
    removeAll pat (c :: rest)
      = if pat.isEmpty then c :: rest
        else if pat.isPrefixOf (c :: rest) then removeAll pat ((c :: rest).drop pat.length)
        else c :: removeAll pat rest := by
  unfold removeAll
  simp only [List.length_cons, removeAll_f]
  by_cases he : pat.isEmpty
  · simp [he]
  · have hlen : 1 ≤ pat.length := by
      cases pat with
      | nil => simp at he
      | cons a t => simp
    by_cases hp : pat.isPrefixOf (c :: rest)
    · simp only [he, hp, if_true, if_false, Bool.false_eq_true, not_false_iff]
      exact removeAll_f_congr pat rest.length _ ((c :: rest).drop pat.length).length
        (by simp only [List.length_drop, List.length_cons]; omega) le_rfl
    · simp only [he, hp, if_true, if_false, Bool.false_eq_true, not_false_iff]

/-- De-indexed form of the inline separator loop: with the bound set to
`count - 1` and `idx` elements already consumed, the loop joins the
remaining renders with `", "`. -/
theorem sep_weave_joinSep (rs : List (List (List Char))) (idx n : Nat)
    (h : idx + rs.length = n) :
    (sep_weave (n - 1) idx rs).flatten = joinSep (rs.map List.flatten) := by
  induction rs generalizing idx with
  | nil => simp [sep_weave, joinSep]
  | cons r rest ih =>
      cases rest with
      | nil =>
          have hge : ¬ idx < n - 1 := by
            simp only [List.length_cons, List.length_nil] at h
            omega
          simp [sep_weave, joinSep, hge]
      | cons r2 t =>
          have hlt : idx < n - 1 := by
            simp only [List.length_cons] at h
            omega
          have ih2 := ih (idx + 1) (by simp only [List.length_cons] at h ⊢; omega)
          simp only [sep_weave, hlt, if_pos, List.map_cons, joinSep,
            List.flatten_append, List.flatten_cons, List.append_assoc] at ih2 ⊢
          rw [ih2]
          simp [joinSep]

/-! ## Character classes of rendered scalars -/

theorem hexDigit_ne_newline (m : Nat) : hexDigit m ≠ '\n' := by
  unfold hexDigit
  split <;> decide

theorem mem_hexLit_ne_newline (n : Nat) (x : Char) (hx : x ∈ hexLit n) : x ≠ '\n' := by
  unfold hexLit at hx
  split at hx
  · simp only [List.mem_singleton] at hx
    exact hx ▸ hexDigit_ne_newline n
  · simp at hx
    rcases hx with rfl | rfl
    · exact hexDigit_ne_newline (n / 16)
    · exact hexDigit_ne_newline (n % 16)

theorem escapeDebugChar_no_newline (c : Char) : '\n' ∉ escapeDebugChar c := by
  by_cases h0 : c = Char.ofNat 0
  · simp only [escapeDebugChar, h0]
    decide
  by_cases ht : c = '\t'
  · simp only [escapeDebugChar, h0, ht]
    decide
  by_cases hr : c = '\r'
  · simp only [escapeDebugChar, h0, ht, hr]
    decide
  by_cases hn : c = '\n'
  · simp only [escapeDebugChar, h0, ht, hr, hn]
    decide
  by_cases hb : c = '\\'
  · simp only [escapeDebugChar, h0, ht, hr, hn, hb]
    decide
  by_cases hq : c = '"'
  · simp only [escapeDebugChar, h0, ht, hr, hn, hb, hq]
    decide
  by_cases hctl : c.toNat < 32 ∨ c.toNat = 127
  · have hred : escapeDebugChar c
        = '\\' :: 'u' :: '\x7b' :: (hexLit c.toNat ++ ['\x7d']) := by
      simp [escapeDebugChar, h0, ht, hr, hn, hb, hq, hctl]
    rw [hred]
    intro hmem
    rcases List.mem_cons.mp hmem with h | hmem2
    · exact absurd h (by decide)
    rcases List.mem_cons.mp hmem2 with h | hmem3
    · exact absurd h (by decide)
    rcases List.mem_cons.mp hmem3 with h | hmem4
    · exact absurd h (by decide)
    rcases List.mem_append.mp hmem4 with h | h
    · exact mem_hexLit_ne_newline _ _ h rfl
    · exact absurd (List.mem_singleton.mp h) (by decide)
  · have hred : escapeDebugChar c = [c] := by
      simp [escapeDebugChar, h0, ht, hr, hn, hb, hq, hctl]
    rw [hred]
    intro hmem
    exact hn (List.mem_singleton.mp hmem).symm

theorem mem_dropWhile_of_mem {p : Char → Bool} {l : List Char} {c : Char}
    (h : c ∈ l) : c ∈ l.takeWhile p ∨ c ∈ l.dropWhile p := by
  have hsplit := List.takeWhile_append_dropWhile (p := p) (l := l)
  rw [← hsplit] at h
  exact List.mem_append.mp h

theorem expDigits_chars (u : List Char) (h : expDigits u = true) :
    ∀ c ∈ u, numberChar c = true := by
  intro c hc
  cases u with
  | nil => simp at hc
  | cons d t =>
      simp only [expDigits, Bool.and_eq_true, List.isEmpty_iff] at h
      rcases mem_dropWhile_of_mem (p := Char.isDigit) hc with hm | hm
      · have := List.mem_takeWhile_imp hm
        simp [numberChar, this]
      · rw [h.2] at hm
        simp at hm

theorem expTail_chars (r : List Char) (h : expTail r = true) :
    ∀ c ∈ r, numberChar c = true := by
  intro c hc
  unfold expTail at h
  split at h
  · simp at hc
  · simp only [List.mem_cons] at hc
    rcases hc with rfl | rfl | hc
    · decide
    · decide
    · exact expDigits_chars _ h _ hc
  · simp only [List.mem_cons] at hc
    rcases hc with rfl | rfl | hc
    · decide
    · decide
    · exact expDigits_chars _ h _ hc
  · simp only [List.mem_cons] at hc
    rcases hc with rfl | hc
    · decide
    · exact expDigits_chars _ h _ hc
  · simp only [List.mem_cons] at hc
    rcases hc with rfl | rfl | hc
    · decide
    · decide
    · exact expDigits_chars _ h _ hc
  · simp only [List.mem_cons] at hc
    rcases hc with rfl | rfl | hc
    · decide
    · decide
    · exact expDigits_chars _ h _ hc
  · simp only [List.mem_cons] at hc
    rcases hc with rfl | hc
    · decide
    · exact expDigits_chars _ h _ hc
  · simp at h

theorem dropWhile_digit_chars (u : List Char)
    (h : ∀ c ∈ u.dropWhile Char.isDigit, numberChar c = true) :
    ∀ c ∈ u, numberChar c = true := by
  intro c hc
  rcases mem_dropWhile_of_mem (p := Char.isDigit) hc with hm | hm
  · have := List.mem_takeWhile_imp hm
    simp [numberChar, this]
  · exact h c hm

theorem fracExpTail_chars (r : List Char) (h : fracExpTail r = true) :
    ∀ c ∈ r, numberChar c = true := by
  intro c hc
  unfold fracExpTail at h
  split at h
  · rename_i u
    simp only [Bool.and_eq_true] at h
    simp only [List.mem_cons] at hc
    rcases hc with rfl | hc
    · decide
    · exact dropWhile_digit_chars u (expTail_chars _ h.2) c hc
  · exact expTail_chars _ h c hc

theorem stripMinus_cases (s : List Char) : s = stripMinus s ∨ s = '-' :: stripMinus s := by
  unfold stripMinus
  split
  · right; rfl
  · left; rfl

theorem intFracExp_chars (u : List Char) (h : intFracExp u = true) :
    ∀ x ∈ u, numberChar x = true := by
  intro x hx
  cases u with
  | nil => simp at hx
  | cons c0 t =>
      simp only [intFracExp, Bool.and_eq_true] at h
      rcases List.mem_cons.mp hx with rfl | hx
      · simp [numberChar, h.1]
      · by_cases h0 : c0 = '0'
        · rw [if_pos h0] at h
          exact fracExpTail_chars _ h.2 x hx
        · rw [if_neg h0] at h
          exact dropWhile_digit_chars t (fracExpTail_chars _ h.2) x hx

theorem isNumLit_chars (s : List Char) (h : isNumLit s = true) :
    ∀ c ∈ s, numberChar c = true := by
  unfold isNumLit at h
  intro c hc
  rcases stripMinus_cases s with heq | heq
  · exact intFracExp_chars _ h c (heq ▸ hc)
  · rw [heq] at hc
    rcases List.mem_cons.mp hc with rfl | hc2
    · decide
    · exact intFracExp_chars _ h c hc2

theorem numberChar_ne_newline (c : Char) (h : numberChar c = true) : c ≠ '\n' := by
  intro rfl_h
  rw [rfl_h] at h
  simp [numberChar, Char.isDigit] at h

theorem numberChar_ne_comma (c : Char) (h : numberChar c = true) : c ≠ ',' := by
  intro rfl_h
  rw [rfl_h] at h
  simp [numberChar, Char.isDigit] at h

theorem escapeDebugString_no_newline (s : List Char) : '\n' ∉ escapeDebugString s := by
  unfold escapeDebugString
  intro hmem
  rcases List.mem_cons.mp hmem with h | hmem2
  · exact absurd h (by decide)
  rcases List.mem_append.mp hmem2 with h | h
  · rcases List.mem_flatten.mp h with ⟨part, hpart, hmem3⟩
    rcases List.mem_map.mp hpart with ⟨c, _, rfl⟩
    exact escapeDebugChar_no_newline c hmem3
  · exact absurd (List.mem_singleton.mp h) (by decide)

/-- A scalar value renders without a newline (number literals are assumed
grammatical, as produced by the parsing collaborator). -/
theorem scalar_render_no_newline (v : Value) (l1 : Nat) (p : List Char)
    (f : List (List Char)) (hc : isContainerV v = false)
    (hnum : ∀ lit, v = Value.num lit → isNumLit lit = true) :
    '\n' ∉ render v l1 p f := by
  cases v with
  | null =>
      simp only [render, write_pretty, List.flatten_cons, List.flatten_nil,
        List.append_nil]
      decide
  | bool b =>
      cases b <;>
        · simp only [render, write_pretty, List.flatten_cons, List.flatten_nil,
            List.append_nil]
          decide
  | num lit =>
      have hlit := hnum lit rfl
      simp only [render, write_pretty, List.flatten_cons, List.flatten_nil,
        List.append_nil]
      intro hmem
      exact numberChar_ne_newline _ (isNumLit_chars lit hlit _ hmem) rfl
  | str s =>
      simp only [render, write_pretty, List.flatten_cons, List.flatten_nil,
        List.append_nil]
      exact escapeDebugString_no_newline s
  | arr xs => simp [isContainerV] at hc
  | obj es => simp [isContainerV] at hc

theorem joinSep_mem (parts : List (List Char)) (x : Char) (hx : x ∈ joinSep parts) :
    (∃ part ∈ parts, x ∈ part) ∨ x ∈ (", ").toList := by
  induction parts with
  | nil => simp [joinSep] at hx
  | cons a rest ih =>
      cases rest with
      | nil =>
          left
          exact ⟨a, by simp, by simpa [joinSep] using hx⟩
      | cons b t =>
          simp only [joinSep, List.append_assoc, List.mem_append] at hx
          rcases hx with h | h | h
          · exact Or.inl ⟨a, by simp, h⟩
          · exact Or.inr h
          · rcases ih h with ⟨part, hp, hm⟩ | h2
            · exact Or.inl ⟨part, by simp [hp], hm⟩
            · exact Or.inr h2

/-- The inline (not chunkable) branch of `write_pretty_array`: a single
`[`, the elements rendered at `level + 1` joined by `", "`, then `]`. -/
theorem inline_array_eq (xs : List Value) (level : Nat) (p : List Char)
    (f : List (List Char)) (hlen : xs.length ≤ 10)
    (hcont : ∀ v ∈ xs, isContainerV v = false) :
    render (Value.arr xs) level p f
      = '[' :: (joinSep (xs.map (fun v => render v (level + 1) p f)) ++ [']']) := by
  have hdec : decide (xs.length > 10) = false := by
    simp
    omega
  have hany : xs.any isContainerV = false := by
    rw [List.any_eq_false]
    intro v hv
    simp [hcont v hv]
  have hweave := sep_weave_joinSep (xs.map (fun v => write_pretty v (level + 1) p f))
    0 xs.length (by simp)
  simp only [render, write_pretty, hdec, hany, Bool.or_self, Bool.false_or,
    if_neg, Bool.false_eq_true, not_false_iff, write_items_eq]
  simp only [List.flatten_cons, List.flatten_append, List.flatten_cons,
    List.flatten_nil, List.append_nil, List.nil_append]
  rw [hweave]
  simp only [List.map_map]
  rfl

/-! ## Chunked arrays -/

theorem sep_weave_specElems (opsOf : Value → List (List Char)) (mx : Nat)
    (g : List Value) : ∀ idx : Nat,
    (sep_weave mx idx (g.map opsOf)).flatten
      = specElems (fun v => (opsOf v).flatten) (mx + 1) idx g := by
  induction g with
  | nil => intro idx; simp [sep_weave, specElems]
  | cons v vs ih =>
      intro idx
      by_cases hlt : idx < mx
      · have hlt2 : idx + 1 < mx + 1 := by omega
        simp [sep_weave, specElems, hlt, hlt2, ih (idx + 1)]
      · have hlt2 : ¬ idx + 1 < mx + 1 := by omega
        simp [sep_weave, specElems, hlt, hlt2, ih (idx + 1)]

theorem chunk_rows_specRows (opsOf : Value → List (List Char)) (k fpad mx : Nat) :
    ∀ (n : Nat) (xs : List Value) (idx : Nat), xs.length ≤ n →
      (chunk_rows k fpad mx idx (xs.map opsOf)).flatten
        = specRows (fun v => (opsOf v).flatten) (mx + 1) fpad idx (chunksOf k xs) := by
  intro n
  induction n with
  | zero =>
      intro xs idx hlen
      have hxs : xs = [] := List.length_eq_zero.mp (Nat.le_zero.mp hlen)
      subst hxs
      simp [chunk_rows_nil, chunksOf, specRows]
  | succ m ih =>
      intro xs idx hlen
      cases xs with
      | nil => simp [chunk_rows_nil, chunksOf, specRows]
      | cons x rest =>
          have hk : 1 ≤ k.max 1 := Nat.le_max_right k 1
          have hdrop : ((x :: rest).drop (k.max 1)).length ≤ m := by
            simp only [List.length_drop, List.length_cons]
            simp only [List.length_cons] at hlen
            omega
          have htake : ((x :: rest).map opsOf).take (k.max 1)
              = ((x :: rest).take (k.max 1)).map opsOf := (List.map_take ..).symm
          have hdropm : ((x :: rest).map opsOf).drop (k.max 1)
              = ((x :: rest).drop (k.max 1)).map opsOf := (List.map_drop ..).symm
          rw [List.map_cons, chunk_rows_cons, ← List.map_cons]
          rw [show (chunksOf k (x :: rest))
              = (x :: rest).take (k.max 1) :: chunksOf k ((x :: rest).drop (k.max 1))
            from by rw [chunksOf]]
          rw [specRows]
          simp only [List.flatten_append, List.flatten_cons, List.flatten_nil,
            List.append_nil]
          rw [htake, hdropm, sep_weave_specElems,
            ih ((x :: rest).drop (k.max 1)) _ hdrop, List.length_map]
          simp [List.append_assoc]

/-- An array that the source considers chunked is non-empty, and the
`max` bound is its length minus one. -/
theorem chunkable_pos (xs : List Value)
    (hch : 10 < xs.length ∨ ∃ v ∈ xs, isContainerV v = true) : 1 ≤ xs.length := by
  rcases hch with h | ⟨v, hv, _⟩
  · omega
  · exact List.length_pos.mpr (List.ne_nil_of_mem hv)

/-- The chunked branch of `write_pretty_array`: `[` newline, the rows of
`chunksOf` groups with globally-indexed separators, closing padding, `]`. -/
theorem chunked_array_eq (xs : List Value) (level : Nat) (p : List Char)
    (f : List (List Char))
    (hch : 10 < xs.length ∨ ∃ v ∈ xs, isContainerV v = true) :
    render (Value.arr xs) level p f
      = specChunked (fun v => render v (level + 1) p f) xs
          (if xs.any hasComplexV then 1 else if xs.any isArrV then 5 else 10)
          ((level + 1) * INDENT) (level * INDENT) := by
  have hpos := chunkable_pos xs hch
  have hcond : (decide (xs.length > 10) || xs.any isContainerV) = true := by
    rcases hch with h | ⟨v, hv, hvc⟩
    · simp [h]
    · have : xs.any isContainerV = true := List.any_eq_true.mpr ⟨v, hv, hvc⟩
      simp [this]
  have hmx : xs.length.max 1 - 1 + 1 = xs.length := by
    have h2 : xs.length.max 1 = max xs.length 1 := rfl
    rw [h2]
    omega
  simp only [render, write_pretty, hcond, if_true, write_items_eq,
    List.flatten_cons, List.flatten_append, List.flatten_nil, List.append_nil]
  rw [chunk_rows_specRows (fun v => write_pretty v (level + 1) p f)
    _ _ _ xs.length xs 0 le_rfl, hmx]
  simp [specChunked, render]

/-- The source's chunk-size computation agrees with the spec's wording. -/
theorem chunkSize_eq_spec (xs : List Value) :
    (if xs.any hasComplexV then 1 else if xs.any isArrV then 5 else 10)
      = specChunkSize xs := by
  have hsplit : xs.any hasComplexV
      = (xs.any (fun v => isArrV v
            && decide (3 < (match v with | Value.arr its => its.length | _ => 0)))
        || xs.any (fun v => match v with | Value.obj _ => true | _ => false)) := by
    induction xs with
    | nil => rfl
    | cons v vs ih =>
        have hv : hasComplexV v
            = ((isArrV v
                && decide (3 < (match v with | Value.arr its => its.length | _ => 0)))
              || (match v with | Value.obj _ => true | _ => false)) := by
          cases v <;> simp [hasComplexV, isArrV]
        simp only [List.any_cons, ih, hv]
        cases (isArrV v
            && decide (3 < (match v with | Value.arr its => its.length | _ => 0))) <;>
          cases (match v with | Value.obj _ => true | _ => false) <;>
          cases vs.any (fun v => isArrV v
            && decide (3 < (match v with | Value.arr its => its.length | _ => 0))) <;>
          cases vs.any (fun v => match v with | Value.obj _ => true | _ => false) <;>
          rfl
  rw [hsplit]
  rfl

/-! ## Comma counting in chunked arrays -/

theorem sep_weave_count (opsOf : Value → List (List Char)) (mx : Nat)
    (g : List Value) (hfree : ∀ v ∈ g, ((opsOf v).flatten).count ',' = 0) :
    ∀ idx, ((sep_weave mx idx (g.map opsOf)).flatten).count ',' = sepCount idx g.length mx := by
  induction g with
  | nil =>
      intro idx
      simp [sep_weave, sepCount]
  | cons v vs ih =>
      intro idx
      have hv := hfree v (by simp)
      have ihh := ih (fun w hw => hfree w (by simp [hw])) (idx + 1)
      have hsep : ((", ").toList).count ',' = 1 := by decide
      by_cases hlt : idx < mx
      · simp only [List.map_cons, sep_weave, hlt, if_true, List.flatten_append,
          List.flatten_cons, List.flatten_nil, List.append_nil, List.count_append,
          hv, ihh, hsep]
        simp only [sepCount, List.length_cons]
        omega
      · simp only [List.map_cons, sep_weave, hlt, if_false, Bool.false_eq_true,
          not_false_iff, if_neg, List.flatten_append, List.flatten_cons,
          List.flatten_nil, List.append_nil, List.count_append, hv, ihh]
        simp only [sepCount, List.length_cons]
        omega

theorem chunk_rows_count (opsOf : Value → List (List Char)) (k fpad mx : Nat) :
    ∀ (n : Nat) (xs : List Value), xs.length ≤ n →
      (∀ v ∈ xs, ((opsOf v).flatten).count ',' = 0) →
      ∀ idx, ((chunk_rows k fpad mx idx (xs.map opsOf)).flatten).count ','
        = sepCount idx xs.length mx := by
  intro n
  induction n with
  | zero =>
      intro xs hlen _ idx
      have hxs : xs = [] := List.length_eq_zero.mp (Nat.le_zero.mp hlen)
      subst hxs
      simp [chunk_rows_nil, sepCount]
  | succ m ih =>
      intro xs hlen hfree idx
      cases xs with
      | nil => simp [chunk_rows_nil, sepCount]
      | cons x rest =>
          have hk : 1 ≤ k.max 1 := Nat.le_max_right k 1
          have hdrop : ((x :: rest).drop (k.max 1)).length ≤ m := by
            simp only [List.length_drop, List.length_cons]
            simp only [List.length_cons] at hlen
            omega
          have htake : ((x :: rest).map opsOf).take (k.max 1)
              = ((x :: rest).take (k.max 1)).map opsOf := (List.map_take ..).symm
          have hdropm : ((x :: rest).map opsOf).drop (k.max 1)
              = ((x :: rest).drop (k.max 1)).map opsOf := (List.map_drop ..).symm
          have hffree : ∀ v ∈ (x :: rest).take (k.max 1), ((opsOf v).flatten).count ',' = 0 :=
            fun v hv => hfree v (List.take_subset _ _ hv)
          have hdfree : ∀ v ∈ (x :: rest).drop (k.max 1), ((opsOf v).flatten).count ',' = 0 :=
            fun v hv => hfree v (List.drop_subset _ _ hv)
          have hpadz : (padChars fpad).count ',' = 0 := by
            simp [padChars, List.count_replicate]
          rw [List.map_cons, chunk_rows_cons, ← List.map_cons, htake, hdropm]
          simp only [List.flatten_append, List.flatten_cons, List.flatten_nil,
            List.append_nil, List.count_append, hpadz, List.length_map]
          rw [sep_weave_count opsOf mx _ hffree idx,
            ih _ hdrop hdfree (idx + ((x :: rest).take (k.max 1)).length)]
          have hone : (['\n'] : List Char).count ',' = 0 := by decide
          rw [hone]
          have hlens : ((x :: rest).take (k.max 1)).length
              + ((x :: rest).drop (k.max 1)).length = (x :: rest).length := by
            rw [List.length_take, List.length_drop]
            simp only [List.length_cons]
            omega
          simp only [sepCount]
          omega

/-! ## The output sink model -/

theorem run_writes_ok (oracle : Nat → Option Nat) (hok : ∀ i, oracle i = none) :
    ∀ (ops : List (List Char)) (k : Nat), run_writes oracle k ops = Except.ok ops.flatten := by
  intro ops
  induction ops with
  | nil => intro k; simp [run_writes]
  | cons op rest ih =>
      intro k
      simp [run_writes, hok k, ih (k + 1)]

theorem run_writes_error (oracle : Nat → Option Nat) :
    ∀ (ops : List (List Char)) (k j e : Nat),
      oracle (k + j) = some e → (∀ i, i < j → oracle (k + i) = none) →
      j < ops.length →
      run_writes oracle k ops = Except.error e := by
  intro ops
  induction ops with
  | nil =>
      intro k j e _ _ hj
      simp at hj
  | cons op rest ih =>
      intro k j e he hnone hj
      cases j with
      | zero =>
          have hk : oracle k = some e := by simpa using he
          simp [run_writes, hk]
      | succ mj =>
          have hk : oracle k = none := by simpa using hnone 0 (Nat.succ_pos mj)
          have he2 : oracle (k + 1 + mj) = some e := by
            rw [show k + 1 + mj = k + (mj + 1) from by omega]
            exact he
          have hnone2 : ∀ i, i < mj → oracle (k + 1 + i) = none := by
            intro i hi
            rw [show k + 1 + i = k + (i + 1) from by omega]
            exact hnone (i + 1) (by omega)
          have hj2 : mj < rest.length := by
            simp only [List.length_cons] at hj
            omega
          simp [run_writes, hk, ih (k + 1) mj e he2 hnone2 hj2]

/-! ## Objects -/

theorem obj_entries_flat_spec (opsOf : List Char → Value → List (List Char))
    (fpad last : Nat) (es : List (List Char × Value)) : ∀ idx : Nat,
    (obj_entries true fpad last idx (es.map (fun e => (e.1, opsOf e.1 e.2)))).flatten
      = specFlatEntries (fun k v => (opsOf k v).flatten) (last + 1) idx es := by
  induction es with
  | nil => intro idx; simp [obj_entries, specFlatEntries]
  | cons e rest ih =>
      intro idx
      obtain ⟨key, v⟩ := e
      by_cases hlt : idx < last
      · have hlt2 : idx + 1 < last + 1 := by omega
        simp [obj_entries, specFlatEntries, hlt, hlt2, ih (idx + 1)]
      · have hlt2 : ¬ idx + 1 < last + 1 := by omega
        simp [obj_entries, specFlatEntries, hlt, hlt2, ih (idx + 1)]

theorem obj_entries_multi_spec (opsOf : List Char → Value → List (List Char))
    (fpad last : Nat) (es : List (List Char × Value)) : ∀ idx : Nat,
    (obj_entries false fpad last idx (es.map (fun e => (e.1, opsOf e.1 e.2)))).flatten
      = specMultiEntries (fun k v => (opsOf k v).flatten) (last + 1) fpad idx es := by
  induction es with
  | nil => intro idx; simp [obj_entries, specMultiEntries]
  | cons e rest ih =>
      intro idx
      obtain ⟨key, v⟩ := e
      by_cases hlt : idx < last
      · have hlt2 : idx + 1 < last + 1 := by omega
        simp [obj_entries, specMultiEntries, hlt, hlt2, ih (idx + 1)]
      · have hlt2 : ¬ idx + 1 < last + 1 := by omega
        simp [obj_entries, specMultiEntries, hlt, hlt2, ih (idx + 1)]

/-- The flattened branch of `write_pretty_object`. -/
theorem object_eq_flat (entries : List (List Char × Value)) (level : Nat)
    (p : List Char) (f : List (List Char)) (hf : p ∈ f)
    (hlt : entries.length < 2 ^ 64) :
    render (Value.obj entries) level p f
      = ("\x7b ").toList
        ++ specFlatEntries (fun k v => render v (level + 1) (pushField p k) f)
             entries.length 0 entries
        ++ (" \x7d").toList := by
  rcases Nat.eq_zero_or_pos entries.length with hz | hpos
  · have : entries = [] := List.length_eq_zero.mp hz
    subst this
    simp [render, write_pretty, hf, obj_entries, specFlatEntries]
  · have hfc : f.contains p = true := by simpa using hf
    have hlast : usizeSub entries.length 1 = entries.length - 1 := usizeSub_one _ hpos hlt
    have htot : entries.length - 1 + 1 = entries.length := by omega
    simp only [render, write_pretty, hfc, if_true, write_fields_eq, hlast,
      List.flatten_append, List.flatten_cons, List.flatten_nil, List.append_nil]
    have hx := obj_entries_flat_spec
      (fun k v => write_pretty v (level + 1) (pushField p k) f)
      ((level + 1) * INDENT) (entries.length - 1) entries 0
    simp only [] at hx
    rw [hx, htot]

/-- The non-flattened branch of `write_pretty_object`. -/
theorem object_eq_multi (entries : List (List Char × Value)) (level : Nat)
    (p : List Char) (f : List (List Char)) (hf : p ∉ f)
    (hlt : entries.length < 2 ^ 64) :
    render (Value.obj entries) level p f
      = '\x7b' :: '\n'
        :: (specMultiEntries (fun k v => render v (level + 1) (pushField p k) f)
              entries.length ((level + 1) * INDENT) 0 entries
            ++ padChars (level * INDENT) ++ ['\x7d']) := by
  rcases Nat.eq_zero_or_pos entries.length with hz | hpos
  · have : entries = [] := List.length_eq_zero.mp hz
    subst this
    simp [render, write_pretty, hf, obj_entries, specMultiEntries]
  · have hfc : f.contains p = false := by simpa using hf
    have hlast : usizeSub entries.length 1 = entries.length - 1 := usizeSub_one _ hpos hlt
    have htot : entries.length - 1 + 1 = entries.length := by omega
    simp only [render, write_pretty, hfc, if_false, Bool.false_eq_true, not_false_iff,
      if_neg, write_fields_eq, hlast,
      List.flatten_append, List.flatten_cons, List.flatten_nil, List.append_nil]
    have hx := obj_entries_multi_spec
      (fun k v => write_pretty v (level + 1) (pushField p k) f)
      ((level + 1) * INDENT) (entries.length - 1) entries 0
    simp only [] at hx
    rw [hx, htot]
    simp [render]

/-! ## Scalar round-trip through the JSON parser -/

theorem parseStringBody_raw (c : Char) (X : List Char) (hq : c ≠ '"') (hb : c ≠ '\\')
    (hctl : ¬ c.toNat < 32) :
    parseStringBody (c :: X)
      = match parseStringBody X with
        | some (tail, rem2) => some (c :: tail, rem2)
        | none => none := by
  conv_lhs => rw [parseStringBody.eq_def]
  simp only [if_neg hq, if_neg hb, if_neg hctl]

theorem parse_escaped_body (s : List Char) (hs : ∀ c ∈ s, jsonSafeChar c = true) :
    ∀ rem : List Char,
      parseStringBody ((s.map escapeDebugChar).flatten ++ '"' :: rem) = some (s, rem) := by
  induction s with
  | nil =>
      intro rem
      rw [show ((List.map escapeDebugChar []).flatten ++ '"' :: rem : List Char)
          = '"' :: rem from rfl]
      rw [parseStringBody.eq_def]
      simp
  | cons c t ih =>
      intro rem
      have hc := hs c (List.mem_cons_self c t)
      have iht := ih (fun x hx => hs x (List.mem_cons_of_mem c hx)) rem
      simp only [List.map_cons, List.flatten_cons, List.append_assoc]
      by_cases h0 : c = '\t'
      · subst h0
        rw [show escapeDebugChar '\t' = ['\\', 't'] from rfl]
        rw [show ∀ X : List Char, (['\\', 't'] : List Char) ++ X = '\\' :: 't' :: X
          from fun X => rfl]
        rw [show ∀ X : List Char, parseStringBody ('\\' :: 't' :: X)
            = (match parseStringBody X with
               | some (tail, rem2) => some ('\t' :: tail, rem2)
               | none => none)
          from fun X => rfl]
        rw [iht]
      · by_cases h1 : c = '\n'
        · subst h1
          rw [show escapeDebugChar '\n' = ['\\', 'n'] from rfl]
          rw [show ∀ X : List Char, (['\\', 'n'] : List Char) ++ X = '\\' :: 'n' :: X
            from fun X => rfl]
          rw [show ∀ X : List Char, parseStringBody ('\\' :: 'n' :: X)
              = (match parseStringBody X with
                 | some (tail, rem2) => some ('\n' :: tail, rem2)
                 | none => none)
            from fun X => rfl]
          rw [iht]
        · by_cases h2 : c = '\r'
          · subst h2
            rw [show escapeDebugChar '\x0d' = ['\\', 'r'] from rfl]
            rw [show ∀ X : List Char, (['\\', 'r'] : List Char) ++ X = '\\' :: 'r' :: X
              from fun X => rfl]
            rw [show ∀ X : List Char, parseStringBody ('\\' :: 'r' :: X)
                = (match parseStringBody X with
                   | some (tail, rem2) => some ('\x0d' :: tail, rem2)
                   | none => none)
              from fun X => rfl]
            rw [iht]
          · by_cases h3 : c = '\\'
            · subst h3
              rw [show escapeDebugChar '\\' = ['\\', '\\'] from rfl]
              rw [show ∀ X : List Char, (['\\', '\\'] : List Char) ++ X = '\\' :: '\\' :: X
                from fun X => rfl]
              rw [show ∀ X : List Char, parseStringBody ('\\' :: '\\' :: X)
                  = (match parseStringBody X with
                     | some (tail, rem2) => some ('\\' :: tail, rem2)
                     | none => none)
                from fun X => rfl]
              rw [iht]
            · by_cases h4 : c = '"'
              · subst h4
                rw [show escapeDebugChar '"' = ['\\', '"'] from rfl]
                rw [show ∀ X : List Char, (['\\', '"'] : List Char) ++ X = '\\' :: '"' :: X
                  from fun X => rfl]
                rw [show ∀ X : List Char, parseStringBody ('\\' :: '"' :: X)
                    = (match parseStringBody X with
                       | some (tail, rem2) => some ('"' :: tail, rem2)
                       | none => none)
                  from fun X => rfl]
                rw [iht]
              · -- printable, unescaped character
                have hrange : 32 ≤ c.toNat ∧ c.toNat ≤ 126 := by
                  simp only [jsonSafeChar, Bool.or_eq_true, Bool.and_eq_true,
                    decide_eq_true_eq] at hc
                  rcases hc with ((h | h) | h) | h
                  · exact h
                  · exact absurd h h0
                  · exact absurd h h1
                  · exact absurd h h2
                have hn0 : c ≠ Char.ofNat 0 := by
                  intro heq
                  have : c.toNat = 0 := by rw [heq]; rfl
                  omega
                have hctl : ¬ (c.toNat < 32 ∨ c.toNat = 127) := by omega
                have hred : escapeDebugChar c = [c] := by
                  simp [escapeDebugChar, hn0, h0, h1, h2, h3, h4, hctl]
                rw [hred]
                rw [show ∀ X : List Char, ([c] : List Char) ++ X = c :: X
                  from fun X => rfl]
                rw [parseStringBody_raw c _ h4 h3 (by omega), iht]

theorem isNumLit_head (s : List Char) (h : isNumLit s = true) :
    ∃ c t, s = c :: t ∧ (c = '-' ∨ c.isDigit = true) := by
  unfold isNumLit at h
  rcases stripMinus_cases s with heq | heq
  · rw [← heq] at h
    cases s with
    | nil => simp [intFracExp] at h
    | cons c t =>
        simp only [intFracExp, Bool.and_eq_true] at h
        exact ⟨c, t, rfl, Or.inr h.1⟩
  · exact ⟨'-', stripMinus s, heq, Or.inl rfl⟩

theorem isNumLit_parse (lit : List Char) (h : isNumLit lit = true) :
    parseJsonScalar lit = some (Value.num lit) := by
  obtain ⟨c, t, heq, hc⟩ := isNumLit_head lit h
  subst heq
  have hchars := isNumLit_chars _ h
  have hne : c ≠ 'n' ∧ c ≠ 't' ∧ c ≠ 'f' ∧ c ≠ '"' := by
    rcases hc with rfl | hd
    · exact ⟨by decide, by decide, by decide, by decide⟩
    · refine ⟨?_, ?_, ?_, ?_⟩ <;>
        · intro heq2
          rw [heq2] at hd
          exact absurd hd (by decide)
  have htake : (c :: t).takeWhile numberChar = c :: t :=
    List.takeWhile_eq_self_iff.mpr hchars
  have hdrop : (c :: t).dropWhile numberChar = [] :=
    List.dropWhile_eq_nil_iff.mpr hchars
  simp only [parseJsonScalar]
  rw [if_neg hne.1, if_neg hne.2.1, if_neg hne.2.2.1, if_neg hne.2.2.2]
  simp only [htake, hdrop, List.isEmpty_nil, h, Bool.and_self, if_true]

/-! ## Output-path derivation lemmas -/

theorem isPrefixOf_eqv (l1 l2 : List Char) : l1.isPrefixOf l2 = true ↔ l1 <+: l2 :=
  List.isPrefixOf_iff_prefix

theorem occursIn_of_prefixOf (pat s : List Char) (h : pat.isPrefixOf s = true) :
    occursIn pat s = true := by
  cases s with
  | nil =>
      have : pat = [] := by
        cases pat with
        | nil => rfl
        | cons a t => simp [List.isPrefixOf] at h
      subst this
      rfl
  | cons c r => simp [occursIn, h]

theorem not_prefixOf_cross (s1 ext : List Char) (hdot : '.' ∉ ext)
    (hocc : occursIn ext (s1 ++ ['.']) = false) :
    ext.isPrefixOf (s1 ++ '.' :: ext) = false := by
  by_contra hcon
  have hpre : ext.isPrefixOf (s1 ++ '.' :: ext) = true := by
    cases hb : ext.isPrefixOf (s1 ++ '.' :: ext) with
    | true => rfl
    | false => exact absurd hb hcon
  have hp : ext <+: (s1 ++ ['.']) ++ ext := by
    rw [← List.append_cons]
    exact (isPrefixOf_eqv _ _).mp hpre
  by_cases hle : ext.length ≤ (s1 ++ ['.']).length
  · have hpp : ext <+: s1 ++ ['.'] :=
      List.prefix_of_prefix_length_le hp (List.prefix_append ..) hle
    have : occursIn ext (s1 ++ ['.']) = true :=
      occursIn_of_prefixOf _ _ ((isPrefixOf_eqv _ _).mpr hpp)
    rw [this] at hocc
    exact absurd hocc (by decide)
  · have hpp : (s1 ++ ['.']) <+: ext :=
      List.prefix_of_prefix_length_le (List.prefix_append ..) hp (by omega)
    obtain ⟨u, hu⟩ := hpp
    have : '.' ∈ ext := by
      rw [← hu]
      simp
    exact hdot this

theorem removeAll_pat_self (ext : List Char) (hne : ext ≠ []) :
    removeAll ext ext = [] := by
  cases ext with
  | nil => exact absurd rfl hne
  | cons e et =>
      rw [removeAll_cons]
      have hemp : (e :: et).isEmpty = false := rfl
      have hpre : (e :: et).isPrefixOf (e :: et) = true :=
        (isPrefixOf_eqv _ _).mpr (List.prefix_refl _)
      rw [hemp, hpre]
      simp only [Bool.false_eq_true, if_false, if_true]
      rw [List.drop_length]
      rfl

theorem removeAll_strip (ext : List Char) (hne : ext ≠ []) (hdot : '.' ∉ ext) :
    ∀ s1 : List Char, occursIn ext (s1 ++ ['.']) = false →
      removeAll ext (s1 ++ '.' :: ext) = s1 ++ ['.'] := by
  have hemp : ext.isEmpty = false := by
    cases ext with
    | nil => exact absurd rfl hne
    | cons a t => rfl
  intro s1
  induction s1 with
  | nil =>
      intro hocc
      have hpre : ext.isPrefixOf ([] ++ '.' :: ext) = false :=
        not_prefixOf_cross [] ext hdot hocc
      simp only [List.nil_append] at hpre ⊢
      rw [removeAll_cons, hemp, hpre]
      simp only [Bool.false_eq_true, if_false]
      rw [removeAll_pat_self ext hne]
  | cons a s1' ih =>
      intro hocc
      have hocc2 : occursIn ext (s1' ++ ['.']) = false := by
        have : occursIn ext ((a :: s1') ++ ['.'])
            = (ext.isPrefixOf ((a :: s1') ++ ['.']) || occursIn ext (s1' ++ ['.'])) := rfl
        rw [this] at hocc
        exact (Bool.or_eq_false_iff.mp hocc).2
      have hpre : ext.isPrefixOf ((a :: s1') ++ '.' :: ext) = false :=
        not_prefixOf_cross (a :: s1') ext hdot hocc
      rw [show (a :: s1') ++ '.' :: ext = a :: (s1' ++ '.' :: ext) from rfl] at hpre ⊢
      rw [removeAll_cons, hemp, hpre]
      simp only [Bool.false_eq_true, if_false]
      rw [ih hocc2]
      rfl

theorem afterLastDot_of_no_dot (s : List Char) (h : '.' ∉ s) : afterLastDot s = none := by
  induction s with
  | nil => rfl
  | cons c t ih =>
      have hc : c ≠ '.' := fun heq => h (by simp [heq])
      have ht : '.' ∉ t := fun hm => h (by simp [hm])
      simp [afterLastDot, ih ht, hc]

theorem afterLastDot_append (ext : List Char) (hdot : '.' ∉ ext) :
    ∀ s1 : List Char, afterLastDot (s1 ++ '.' :: ext) = some ext := by
  intro s1
  induction s1 with
  | nil =>
      simp [afterLastDot, afterLastDot_of_no_dot ext hdot]
  | cons c t ih =>
      have hred : afterLastDot (c :: (t ++ '.' :: ext))
          = match afterLastDot (t ++ '.' :: ext) with
            | some e => some e
            | none => if c = '.' then some (t ++ '.' :: ext) else none := rfl
      rw [List.cons_append, hred, ih]

theorem rustExtension_split (stem ext : List Char) (hstem : stem ≠ [])
    (hext : ext ≠ []) (hdot : '.' ∉ ext) :
    rustExtension (stem ++ '.' :: ext) = ext := by
  cases stem with
  | nil => exact absurd rfl hstem
  | cons c st =>
      have hne2 : (c :: st) ++ '.' :: ext ≠ ['.', '.'] := by
        intro heq
        have hlen := congrArg List.length heq
        simp only [List.length_append, List.length_cons] at hlen
        cases ext with
        | nil => exact hext rfl
        | cons e et => simp at hlen; omega
      unfold rustExtension
      rw [if_neg hne2]
      simp only [List.cons_append]
      rw [afterLastDot_append ext hdot st]

theorem pretty_name_single_ext (stem ext : List Char) (hstem : stem ≠ [])
    (hext : ext ≠ []) (hdot : '.' ∉ ext)
    (hocc : occursIn ext (stem ++ ['.']) = false) :
    pretty_name (stem ++ '.' :: ext) none = stem ++ ("-pretty.").toList ++ ext := by
  have hemp : ext.isEmpty = false := by
    cases ext with
    | nil => exact absurd rfl hext
    | cons a t => rfl
  have hlast : (stem ++ ['.']).getLast? = some '.' := List.getLast?_concat ..
  simp only [pretty_name, rustExtension_split stem ext hstem hext hdot,
    removeAll_strip ext hext hdot stem hocc, hemp, Bool.false_eq_true, if_false,
    dropTrailingDot, hlast, if_pos, List.dropLast_concat]
  rw [show (("-pretty.").toList : List Char) = ("-pretty").toList ++ ['.'] from rfl]
  simp [List.append_assoc]

theorem pretty_name_no_ext (name : List Char) (hext : rustExtension name = [])
    (hlast : name.getLast? ≠ some '.') :
    pretty_name name none = name ++ ("-pretty").toList := by
  have hrm : removeAll ([] : List Char) name = name := by
    cases name with
    | nil => rfl
    | cons c t =>
        rw [removeAll_cons]
        rfl
  simp only [pretty_name, hext, List.isEmpty_nil, if_true, hrm, dropTrailingDot,
    if_neg hlast]

/-! ## Claims -/

/-- C1 counterexample: the claim fails as stated — the string consisting of
the single control character U+0001 renders via Rust's debug escape as
`"\u{1}"`, which is not JSON (`\u` demands four hex digits), so re-parsing
the rendered scalar fails instead of returning the original value. -/
theorem c1_roundtrip_counterexample :
    render (Value.str [Char.ofNat 1]) 0 [] []
        = ('"' :: '\\' :: 'u' :: '\x7b' :: '1' :: '\x7d' :: ['"'])
      ∧ parseJsonScalar (render (Value.str [Char.ofNat 1]) 0 [] []) = none :=
  ⟨by decide, rfl⟩

/-- C1 (amended): for scalars the rendered text round-trips through an
RFC 8259 parser to an equal value, provided number literals are
grammatical and every string character is JSON-debug-safe (printable
ASCII, tab, LF or CR) — the characters for which the host debug escaping
coincides with JSON escaping. -/
theorem c1_scalar_roundtrip (v : Value) (h : scalarWF v) :
    parseJsonScalar (render v 0 [] []) = some v := by
  cases v with
  | null => rfl
  | bool b => cases b <;> rfl
  | num lit =>
      have hl : isNumLit lit = true := h
      have hr : render (Value.num lit) 0 [] [] = lit := by
        simp [render, write_pretty]
      rw [hr]
      exact isNumLit_parse lit hl
  | str s =>
      have hs : ∀ c ∈ s, jsonSafeChar c = true := h
      have hr : render (Value.str s) 0 [] []
          = '"' :: ((s.map escapeDebugChar).flatten ++ '"' :: []) := by
        simp [render, write_pretty, escapeDebugString]
      rw [hr]
      simp only [parseJsonScalar, if_true]
      rw [parse_escaped_body s hs []]
      simp
  | arr xs => exact h.elim
  | obj es => exact h.elim

/-- C1 witness: a concrete safe scalar string (with inner quote and
newline) round-trips. -/
theorem c1_scalar_roundtrip_witness :
    parseJsonScalar (render (Value.str (("a\"b\n").toList)) 0 [] [])
      = some (Value.str (("a\"b\n").toList)) :=
  c1_scalar_roundtrip (Value.str (("a\"b\n").toList))
    (by show ∀ c ∈ (("a\"b\n").toList), jsonSafeChar c = true; decide)

/-- C2: rendering the empty object at levels 0 and 1 and the empty array,
evaluated on the embedded code.  The empty array renders as `[]`; the
empty object renders as `{` newline padding `}` — one space at level 0
because the closing write pads a space character — and its `last`-index
computation `object.len() - 1` does underflow for the empty object
(wrapping here, a panic under debug overflow checks), which is the code
bug this claim exposes. -/
theorem c2_empty_render :
    render (Value.obj []) 0 [] [] = ("\x7b\n \x7d").toList
      ∧ render (Value.obj []) 1 [] [] = ("\x7b\n    \x7d").toList
      ∧ render (Value.arr []) 0 [] [] = ("[]").toList
      ∧ usizeSubUnderflows (List.length ([] : List (List Char × Value))) 1 = true :=
  ⟨by decide, by decide, by decide, by decide⟩

/-- C3: every chunkable array renders as `[` newline, then the elements
partitioned into `chunksOf (specChunkSize xs)` row-groups — size 1 when
some element is an Object or an Array of more than 3 items, else 5 when
some element is an Array, else 10 — with globally-indexed separators,
closing padding and `]`; consequently 11 plain numbers render as a row of
10 and a row of 1, and an array containing an Array of 4 items renders
one element per row. -/
theorem c3_chunk_partition (xs : List Value) (level : Nat) (p : List Char)
    (f : List (List Char))
    (hch : 10 < xs.length ∨ ∃ v ∈ xs, isContainerV v = true) :
    render (Value.arr xs) level p f
        = specChunked (fun v => render v (level + 1) p f) xs (specChunkSize xs)
            ((level + 1) * INDENT) (level * INDENT)
      ∧ render (Value.arr [Value.num ['1'], Value.num ['2'], Value.num ['3'],
            Value.num ['4'], Value.num ['5'], Value.num ['6'], Value.num ['7'],
            Value.num ['8'], Value.num ['9'], Value.num ['1', '0'],
            Value.num ['1', '1']]) 0 [] []
          = ("[\n    1, 2, 3, 4, 5, 6, 7, 8, 9, 10, \n    11\n ]").toList
      ∧ render (Value.arr [Value.arr [Value.num ['1'], Value.num ['2'],
            Value.num ['3'], Value.num ['4']], Value.num ['5']]) 0 [] []
          = ("[\n    [1, 2, 3, 4], \n    5\n ]").toList := by
  refine ⟨?_, by decide, by decide⟩
  rw [← chunkSize_eq_spec]
  exact chunked_array_eq xs level p f hch

/-- C3 witness: the refinement instantiated at the 11-number array. -/
theorem c3_chunk_partition_witness :
    render (Value.arr [Value.num ['1'], Value.num ['2'], Value.num ['3'],
        Value.num ['4'], Value.num ['5'], Value.num ['6'], Value.num ['7'],
        Value.num ['8'], Value.num ['9'], Value.num ['1', '0'],
        Value.num ['1', '1']]) 0 [] []
      = specChunked
          (fun v => render v (0 + 1) [] [])
          [Value.num ['1'], Value.num ['2'], Value.num ['3'], Value.num ['4'],
            Value.num ['5'], Value.num ['6'], Value.num ['7'], Value.num ['8'],
            Value.num ['9'], Value.num ['1', '0'], Value.num ['1', '1']]
          (specChunkSize [Value.num ['1'], Value.num ['2'], Value.num ['3'],
            Value.num ['4'], Value.num ['5'], Value.num ['6'], Value.num ['7'],
            Value.num ['8'], Value.num ['9'], Value.num ['1', '0'],
            Value.num ['1', '1']])
          ((0 + 1) * INDENT) (0 * INDENT) :=
  (c3_chunk_partition [Value.num ['1'], Value.num ['2'], Value.num ['3'],
      Value.num ['4'], Value.num ['5'], Value.num ['6'], Value.num ['7'],
      Value.num ['8'], Value.num ['9'], Value.num ['1', '0'],
      Value.num ['1', '1']] 0 [] [] (Or.inl (by decide))).1

/-- C4: a non-chunkable array (length at most 10, no Array or Object
element) renders as the single inline line `[e0, e1, ..., en]` — each
element rendered at `level + 1`, joined by `", "` with no trailing
separator — and contains no newline (number literals grammatical). -/
theorem c4_inline_array (xs : List Value) (level : Nat) (p : List Char)
    (f : List (List Char)) (hlen : xs.length ≤ 10)
    (hcont : ∀ v ∈ xs, isContainerV v = false)
    (hnum : ∀ lit, Value.num lit ∈ xs → isNumLit lit = true) :
    render (Value.arr xs) level p f
        = '[' :: (joinSep (xs.map (fun v => render v (level + 1) p f)) ++ [']'])
      ∧ '\n' ∉ render (Value.arr xs) level p f := by
  have heq := inline_array_eq xs level p f hlen hcont
  refine ⟨heq, ?_⟩
  rw [heq]
  intro hmem
  rcases List.mem_cons.mp hmem with h | hmem2
  · exact absurd h (by decide)
  rcases List.mem_append.mp hmem2 with h | h
  · rcases joinSep_mem _ _ h with ⟨part, hp, hm⟩ | h2
    · rcases List.mem_map.mp hp with ⟨v, hv, rfl⟩
      exact scalar_render_no_newline v (level + 1) p f (hcont v hv)
        (fun lit hl => hnum lit (hl ▸ hv)) hm
    · exact absurd h2 (by decide)
  · exact absurd (List.mem_singleton.mp h) (by decide)

/-- C4 witness: a concrete three-scalar array is rendered inline without a
newline. -/
theorem c4_inline_array_witness :
    render (Value.arr [Value.num ['1'], Value.str ['a'], Value.null]) 0 [] []
        = '[' :: (joinSep ([Value.num ['1'], Value.str ['a'], Value.null].map
            (fun v => render v (0 + 1) [] [])) ++ [']'])
      ∧ '\n' ∉ render (Value.arr [Value.num ['1'], Value.str ['a'], Value.null]) 0 [] [] :=
  c4_inline_array [Value.num ['1'], Value.str ['a'], Value.null] 0 [] []
    (by decide) (by decide)
    (by
      intro lit hl
      rcases List.mem_cons.mp hl with h | hl2
      · cases h
        decide
      rcases List.mem_cons.mp hl2 with h | hl3
      · exact Value.noConfusion h
      rcases List.mem_cons.mp hl3 with h | hl4
      · exact Value.noConfusion h
      · exact absurd hl4 (List.not_mem_nil _))

/-- C5: in a chunked array of plain numbers, comma placement is continuous
across the flattened element stream: the rendered output carries exactly
`length - 1` commas, one after every element but the very last (a per-row
reset would drop one comma per row); concretely, 12 numbers chunk into a
row of 10 — whose last element is followed by `", "` before the newline —
and a row of 2 whose final element has no comma. -/
theorem c5_continuous_commas (xs : List Value) (level : Nat) (p : List Char)
    (f : List (List Char))
    (hnum : ∀ v ∈ xs, ∃ lit, v = Value.num lit ∧ isNumLit lit = true)
    (hlen : 10 < xs.length) :
    (render (Value.arr xs) level p f).count ',' = xs.length - 1
      ∧ render (Value.arr [Value.num ['1'], Value.num ['2'], Value.num ['3'],
            Value.num ['4'], Value.num ['5'], Value.num ['6'], Value.num ['7'],
            Value.num ['8'], Value.num ['9'], Value.num ['1', '0'],
            Value.num ['1', '1'], Value.num ['1', '2']]) 0 [] []
          = ("[\n    1, 2, 3, 4, 5, 6, 7, 8, 9, 10, \n    11, 12\n ]").toList := by
  refine ⟨?_, by decide⟩
  have hfree : ∀ v ∈ xs, ((write_pretty v (level + 1) p f).flatten).count ',' = 0 := by
    intro v hv
    obtain ⟨lit, rfl, hl⟩ := hnum v hv
    simp only [write_pretty, List.flatten_cons, List.flatten_nil, List.append_nil]
    exact List.count_eq_zero.mpr
      (fun hm => numberChar_ne_comma ',' (isNumLit_chars lit hl ',' hm) rfl)
  have hcond : (decide (xs.length > 10) || xs.any isContainerV) = true := by
    simp [hlen]
  have hchunk := chunk_rows_count (fun v => write_pretty v (level + 1) p f)
    (if xs.any hasComplexV then 1 else if xs.any isArrV then 5 else 10)
    ((level + 1) * INDENT) (xs.length.max 1 - 1) xs.length xs le_rfl hfree 0
  have hpadz : (padChars (level * INDENT)).count ',' = 0 := by
    simp [padChars, List.count_replicate]
  simp only [render, write_pretty, hcond, if_true, write_items_eq,
    List.flatten_cons, List.flatten_append, List.flatten_nil, List.append_nil,
    List.count_append, List.count_cons, hpadz, hchunk]
  have hm2 : xs.length.max 1 = max xs.length 1 := rfl
  simp only [sepCount, hm2]
  have : ¬ (',' = '[') ∧ ¬ (',' = '\n') ∧ ¬ (',' = ']') := by decide
  simp [this.1, this.2.1, this.2.2]
  omega

/-- C5 witness: the comma-count property instantiated at eleven numbers. -/
theorem c5_continuous_commas_witness :
    (render (Value.arr [Value.num ['1'], Value.num ['2'], Value.num ['3'],
        Value.num ['4'], Value.num ['5'], Value.num ['6'], Value.num ['7'],
        Value.num ['8'], Value.num ['9'], Value.num ['1', '0'],
        Value.num ['1', '1']]) 0 [] []).count ','
      = [Value.num ['1'], Value.num ['2'], Value.num ['3'], Value.num ['4'],
          Value.num ['5'], Value.num ['6'], Value.num ['7'], Value.num ['8'],
          Value.num ['9'], Value.num ['1', '0'], Value.num ['1', '1']].length - 1 :=
  (c5_continuous_commas [Value.num ['1'], Value.num ['2'], Value.num ['3'],
      Value.num ['4'], Value.num ['5'], Value.num ['6'], Value.num ['7'],
      Value.num ['8'], Value.num ['9'], Value.num ['1', '0'],
      Value.num ['1', '1']] 0 [] []
    (by
      intro v hv
      fin_cases hv <;> exact ⟨_, rfl, by decide⟩)
    (by decide)).1

/-- C6: an object is flattened exactly when its accumulated property path
is a member of the flatten set: a member path renders `{ `, the entries in
insertion order as quoted key, `": "`, the value rendered with the path
extended, `", "` when not last and no per-entry newline, closed by ` }`;
a non-member path renders the multi-line layout; and the document
`{"a": {"b": 1, "c": 2}}` with flatten set `{"a"}` renders key `a`'s value
exactly as `{ "b": 1, "c": 2 }` inside the outer multi-line object. -/
theorem c6_flatten_object (entries : List (List Char × Value)) (level : Nat)
    (p : List Char) (f : List (List Char)) (hlen : entries.length < 2 ^ 64) :
    (p ∈ f → render (Value.obj entries) level p f
        = ("\x7b ").toList
          ++ specFlatEntries (fun k v => render v (level + 1) (pushField p k) f)
               entries.length 0 entries
          ++ (" \x7d").toList)
      ∧ (p ∉ f → render (Value.obj entries) level p f
          = '\x7b' :: '\n'
            :: (specMultiEntries (fun k v => render v (level + 1) (pushField p k) f)
                  entries.length ((level + 1) * INDENT) 0 entries
                ++ padChars (level * INDENT) ++ ['\x7d']))
      ∧ render (Value.obj [(("a").toList, Value.obj [(("b").toList, Value.num ['1']),
            (("c").toList, Value.num ['2'])])]) 0 [] [("a").toList]
          = ("\x7b\n    \"a\": \x7b \"b\": 1, \"c\": 2 \x7d\n \x7d").toList :=
  ⟨fun hf => object_eq_flat entries level p f hf hlen,
   fun hf => object_eq_multi entries level p f hf hlen,
   by decide⟩

/-- C6 witness: the flattened form instantiated at a one-entry object whose
path is in the flatten set. -/
theorem c6_flatten_object_witness :
    render (Value.obj [(("k").toList, Value.null)]) 0 (("a").toList) [("a").toList]
      = ("\x7b ").toList
        ++ specFlatEntries
            (fun k v => render v (0 + 1) (pushField (("a").toList) k) [("a").toList])
            [(("k").toList, Value.null)].length 0 [(("k").toList, Value.null)]
        ++ (" \x7d").toList :=
  (c6_flatten_object [(("k").toList, Value.null)] 0 (("a").toList) [("a").toList]
    (by norm_num)).1 (by decide)

/-- C7: array traversal passes the property path through unchanged, so an
object inside an array inherits the path of its containing field: an array
holding one object renders that object at the same path `p` (flattened
when `p` is in the flatten set), and `{"items": [{"x": 1}]}` with flatten
set `{"items"}` renders the inner object as `{ "x": 1 }`. -/
theorem c7_array_path_inherit (entries : List (List Char × Value)) (level : Nat)
    (p : List Char) (f : List (List Char)) (hf : p ∈ f)
    (hlen : entries.length < 2 ^ 64) :
    render (Value.arr [Value.obj entries]) level p f
        = '[' :: '\n' :: (padChars ((level + 1) * INDENT)
            ++ render (Value.obj entries) (level + 1) p f
            ++ '\n' :: (padChars (level * INDENT) ++ [']']))
      ∧ render (Value.obj entries) (level + 1) p f
          = ("\x7b ").toList
            ++ specFlatEntries (fun k v => render v (level + 1 + 1) (pushField p k) f)
                 entries.length 0 entries
            ++ (" \x7d").toList
      ∧ render (Value.obj [(("items").toList,
            Value.arr [Value.obj [(("x").toList, Value.num ['1'])]])]) 0 []
            [("items").toList]
          = ("\x7b\n    \"items\": [\n        \x7b \"x\": 1 \x7d\n    ]\n \x7d").toList := by
  refine ⟨?_, object_eq_flat entries (level + 1) p f hf hlen, by decide⟩
  have harr := chunked_array_eq [Value.obj entries] level p f
    (Or.inr ⟨Value.obj entries, by simp, rfl⟩)
  rw [harr]
  have hk : (if ([Value.obj entries] : List Value).any hasComplexV then 1
      else if ([Value.obj entries] : List Value).any isArrV then 5 else 10) = 1 := by
    simp [hasComplexV]
  rw [hk]
  have hchunks : chunksOf 1 [Value.obj entries] = [[Value.obj entries]] := by
    rw [chunksOf]
    rw [show ((1 : Nat).max 1) = 1 from rfl]
    rw [show ([Value.obj entries].take 1) = [Value.obj entries] from rfl]
    rw [show ([Value.obj entries].drop 1) = ([] : List Value) from rfl]
    rw [chunksOf]
  simp only [specChunked, hchunks, specRows, specElems, List.length_cons,
    List.length_nil, Nat.lt_irrefl, if_false, List.append_nil, List.nil_append]
  simp [List.append_assoc]

/-- C7 witness: the path-inheritance property instantiated at a one-entry
object inside an array whose containing path is in the flatten set. -/
theorem c7_array_path_inherit_witness :
    render (Value.arr [Value.obj [(("x").toList, Value.num ['1'])]]) 0
        (("items").toList) [("items").toList]
      = '[' :: '\n' :: (padChars ((0 + 1) * INDENT)
          ++ render (Value.obj [(("x").toList, Value.num ['1'])]) (0 + 1)
              (("items").toList) [("items").toList]
          ++ '\n' :: (padChars (0 * INDENT) ++ [']'])) :=
  (c7_array_path_inherit [(("x").toList, Value.num ['1'])] 0 (("items").toList)
    [("items").toList] (by decide) (by norm_num)).1

/-- C8 counterexample: the claim fails as stated — for source `json.json`
the code strips every occurrence of the extension text, producing
`-pretty.json` instead of `json-pretty.json`. -/
theorem c8_output_name_counterexample :
    pretty_name (("json.json").toList) none = ("-pretty.json").toList
      ∧ pretty_name (("json.json").toList) none ≠ ("json-pretty.json").toList :=
  ⟨by decide, by decide⟩

/-- C8 (amended): the default output name deletes every occurrence of the
final extension text from the basename (then drops one trailing dot),
appends `-pretty` and re-appends the extension; this coincides with
stripping only the final extension exactly when the extension text occurs
nowhere else in the basename.  In particular `data.json` →
`data-pretty.json`, `foo.bar.json` → `foo.bar-pretty.json`, and
extensionless `foo` (not ending in a dot) → `foo-pretty`. -/
theorem c8_output_name_amended (stem ext name : List Char) :
    (stem ≠ [] → ext ≠ [] → '.' ∉ ext → occursIn ext (stem ++ ['.']) = false →
        pretty_name (stem ++ '.' :: ext) none = stem ++ ("-pretty.").toList ++ ext)
      ∧ (rustExtension name = [] → name.getLast? ≠ some '.' →
          pretty_name name none = name ++ ("-pretty").toList)
      ∧ pretty_name (("data.json").toList) none = ("data-pretty.json").toList
      ∧ pretty_name (("foo.bar.json").toList) none = ("foo.bar-pretty.json").toList
      ∧ pretty_name (("foo").toList) none = ("foo-pretty").toList :=
  ⟨fun h1 h2 h3 h4 => pretty_name_single_ext stem ext h1 h2 h3 h4,
   fun h1 h2 => pretty_name_no_ext name h1 h2,
   by decide, by decide, by decide⟩

/-- C8 witness: the amended derivation instantiated at `foo.json`. -/
theorem c8_output_name_witness :
    pretty_name ((("foo").toList) ++ '.' :: (("json").toList)) none
      = ("foo").toList ++ ("-pretty.").toList ++ ("json").toList :=
  (c8_output_name_amended (("foo").toList) (("json").toList) []).1
    (by decide) (by decide) (by decide) (by decide)

/-- C9: the renderer only fails when a write to the sink fails — if every
write succeeds the run returns the full rendered text, and the first
failing write aborts the run immediately with that error propagated
unchanged. -/
theorem c9_write_errors (v : Value) (level : Nat) (p : List Char)
    (f : List (List Char)) (oracle : Nat → Option Nat) :
    ((∀ i, oracle i = none) →
        run_writes oracle 0 (write_pretty v level p f) = Except.ok (render v level p f))
      ∧ (∀ j e, oracle j = some e → (∀ i, i < j → oracle i = none) →
          j < (write_pretty v level p f).length →
          run_writes oracle 0 (write_pretty v level p f) = Except.error e) := by
  constructor
  · intro hok
    rw [run_writes_ok oracle hok (write_pretty v level p f) 0]
    rfl
  · intro j e he hn hj
    exact run_writes_error oracle (write_pretty v level p f) 0 j e
      (by simpa using he) (fun i hi => by simpa using hn i hi) hj

/-- C9 witness: with a never-failing sink, rendering `null` returns the
full output. -/
theorem c9_write_errors_witness :
    run_writes (fun _ => none) 0 (write_pretty Value.null 0 [] [])
      = Except.ok (render Value.null 0 [] []) :=
  (c9_write_errors Value.null 0 [] [] (fun _ => none)).1 (fun _ => rfl)

/-- C10: object keys are emitted verbatim between two literal quotes with
no escaping, in both the flattened and multi-line layouts — unlike string
values, which pass through the debug escaper — so a key containing a
double quote appears unescaped in the output while the same text as a
string value is escaped. -/
theorem c10_keys_unescaped (k : List Char) (v : Value) (level : Nat)
    (p : List Char) (f : List (List Char)) :
    (p ∈ f → render (Value.obj [(k, v)]) level p f
        = ("\x7b ").toList ++ '"' :: (k ++ ("\": ").toList)
          ++ render v (level + 1) (pushField p k) f ++ (" \x7d").toList)
      ∧ (p ∉ f → render (Value.obj [(k, v)]) level p f
          = '\x7b' :: '\n' :: (padChars ((level + 1) * INDENT)
              ++ '"' :: (k ++ ("\": ").toList)
              ++ render v (level + 1) (pushField p k) f
              ++ '\n' :: (padChars (level * INDENT) ++ ['\x7d'])))
      ∧ render (Value.obj [(('a' :: '"' :: ['b']), Value.null)]) 0 [] []
          = ("\x7b\n    \"a\"b\": null\n \x7d").toList
      ∧ render (Value.str ('a' :: '"' :: ['b'])) 0 [] []
          = ('"' :: 'a' :: '\\' :: '"' :: 'b' :: ['"']) := by
  refine ⟨?_, ?_, by decide, by decide⟩
  · intro hf
    rw [object_eq_flat [(k, v)] level p f hf (by norm_num)]
    simp [specFlatEntries]
  · intro hf
    rw [object_eq_multi [(k, v)] level p f hf (by norm_num)]
    simp [specMultiEntries]

/-- C10 witness: the flattened single-entry form instantiated at a key
containing a quote. -/
theorem c10_keys_unescaped_witness :
    render (Value.obj [(('a' :: '"' :: ['b']), Value.null)]) 0 (("q").toList)
        [("q").toList]
      = ("\x7b ").toList ++ '"' :: (('a' :: '"' :: ['b']) ++ ("\": ").toList)
        ++ render Value.null (0 + 1) (pushField (("q").toList) ('a' :: '"' :: ['b']))
            [("q").toList]
        ++ (" \x7d").toList :=
  (c10_keys_unescaped ('a' :: '"' :: ['b']) Value.null 0 (("q").toList)
    [("q").toList]).1 (by decide)

end PrettyJson
